import Mathlib

/-!
Shallow embedding of the SCAN domain-knowledge module (`src/data/scan.py`):
the grammar table (`sym2prog`, `sym2arity`, `op2precedence`), the input
normalizer (`transform_input`), and the operator-precedence dependency
parser (`parse`).  Python token lists become `List String`, action tuples
become `List Nat`, the head array becomes `List Int` with `-1` as ROOT,
and the Python exceptions (KeyError on symbol-table lookups, IndexError on
`list.pop` from an empty list, AssertionError on the final assert) become
an explicit `ParseError` in an `Except` result.
-/

namespace SCAN

/-- Token classes of the SCAN grammar, as in the class attributes of `SCAN`. -/
def action_word : List String := ["turn", "walk", "look", "run", "jump"]

def dir_word : List String := ["left", "right"]

def turn_times_word : List String := ["opposite", "around"]

def times_word : List String := ["twice", "thrice"]

def connect_word : List String := ["and", "after"]

def vocab : List String :=
  action_word ++ dir_word ++ turn_times_word ++ times_word ++ connect_word

/-- The fixed output vocabulary (`SCAN.vocab_output`). -/
def vocab_output : List String :=
  ["", "I_WALK", "I_LOOK", "I_RUN", "I_JUMP", "I_TURN_LEFT", "I_TURN_RIGHT"]

/-- Precedence table (`SCAN.op2precedence`); symbols without an entry
return `none` (a lookup on them would be a Python KeyError). -/
def op2precedence (s : String) : Option Nat :=
  if s ∈ connect_word then some 1
  else if s ∈ times_word then some 2
  else if s ∈ turn_times_word then some 3
  else if s ∈ dir_word then some 4
  else none

/-- A semantic program of the grammar table, mirroring the `Program`
wrappers in `SCAN.sym2prog`: a nullary program is its constant result, a
unary program maps one argument tuple to a result (`none` models the
IndexError that `opposite` raises on an empty tuple), a binary program
combines two argument tuples. -/
inductive Prog where
  | nullary (v : List Nat)
  | unary (f : List Nat → Option (List Nat))
  | binary (f : List Nat → List Nat → List Nat)

/-- The arity of a program: the parameter count of the wrapped lambda. -/
def Prog.arity : Prog → Nat
  | .nullary _ => 0
  | .unary _ => 1
  | .binary _ => 2

/-- The symbol-to-program table `SCAN.sym2prog`, entry by entry. -/
def sym2prog (s : String) : Option Prog :=
  if s = "turn" then some (.nullary [])
  else if s = "walk" then some (.nullary [1])
  else if s = "look" then some (.nullary [2])
  else if s = "run" then some (.nullary [3])
  else if s = "jump" then some (.nullary [4])
  else if s = "left" then some (.unary fun x => some (5 :: x))
  else if s = "right" then some (.unary fun x => some (6 :: x))
  else if s = "opposite" then
    some (.unary fun x => match x with
      | [] => none
      | a :: r => some (a :: a :: r))
  else if s = "around" then some (.unary fun x => some (x ++ x ++ x ++ x))
  else if s = "twice" then some (.unary fun x => some (x ++ x))
  else if s = "thrice" then some (.unary fun x => some (x ++ x ++ x))
  else if s = "and" then some (.binary fun x y => x ++ y)
  else if s = "after" then some (.binary fun x y => y ++ x)
  else none

/-- `SCAN.sym2arity`, derived from `sym2prog` as in the source. -/
def sym2arity (s : String) : Option Nat :=
  (sym2prog s).map Prog.arity

/-- The constant result of an arity-0 symbol's semantic function. -/
def nullaryResult (s : String) : Option (List Nat) :=
  match sym2prog s with
  | some (.nullary v) => some v
  | _ => none

/-- Apply an arity-1 symbol's semantic function to an argument tuple. -/
def unaryApp (s : String) (x : List Nat) : Option (List Nat) :=
  match sym2prog s with
  | some (.unary f) => f x
  | _ => none

/-- Apply an arity-2 symbol's semantic function to two argument tuples. -/
def binaryApp (s : String) (x y : List Nat) : Option (List Nat) :=
  match sym2prog s with
  | some (.binary f) => some (f x y)
  | _ => none

/-- Failure modes of `parse`: `unknownSymbol` models a Python KeyError on
`sym2arity`/`op2precedence`, `malformedSequence` models the IndexError of
popping an empty list and the failure of the final `assert`. -/
inductive ParseError where
  | unknownSymbol
  | malformedSequence
deriving DecidableEq

/-- The inner loop `for _ in range(arity): head[values.pop()] = op` of
`SCAN.parse`: pop `k` values and point each of their heads at `op`. -/
def reduceValues (op : Nat) : Nat → List Nat → List Int →
    Except ParseError (List Nat × List Int)
  | 0, values, head => .ok (values, head)
  | _ + 1, [], _ => .error .malformedSequence
  | k + 1, v :: values, head => reduceValues op k values (head.set v (op : Int))

/-- The `while` loop of `SCAN.parse`: as long as the operator stack is
non-empty and its top has precedence `≥` that of the current symbol `sym`,
pop the top operator, reduce its arity-many values, and push it back as a
completed value.  The stacks grow at their list heads. -/
def reduceOps (input : List String) (sym : String) : List Nat → List Nat → List Int →
    Except ParseError (List Nat × List Nat × List Int)
  | [], values, head => .ok ([], values, head)
  | op :: ops, values, head =>
    match input.get? op with
    | none => .error .malformedSequence
    | some s =>
      match op2precedence s with
      | none => .error .unknownSymbol
      | some p =>
        match op2precedence sym with
        | none => .error .unknownSymbol
        | some q =>
          if q ≤ p then
            match sym2arity s with
            | none => .error .unknownSymbol
            | some k =>
              match reduceValues op k values head with
              | .error e => .error e
              | .ok (values', head') => reduceOps input sym ops (op :: values') head'
          else .ok (op :: ops, values, head)

/-- The drain loop after the scan in `SCAN.parse`: pop every remaining
operator and reduce it. -/
def drainOps (input : List String) : List Nat → List Nat → List Int →
    Except ParseError (List Nat × List Int)
  | [], values, head => .ok (values, head)
  | op :: ops, values, head =>
    match input.get? op with
    | none => .error .malformedSequence
    | some s =>
      match sym2arity s with
      | none => .error .unknownSymbol
      | some k =>
        match reduceValues op k values head with
        | .error e => .error e
        | .ok (values', head') => drainOps input ops (op :: values') head'

/-- The main `for (i, sym) in enumerate(input)` loop of `SCAN.parse` over
the remaining (position, symbol) pairs: arity-0 symbols are shifted onto
the value stack, operators first force reductions of higher-or-equal
precedence pending operators and are then pushed onto the operator
stack. -/
def parseGo (input : List String) : List (Nat × String) → List Nat → List Nat → List Int →
    Except ParseError (List Nat × List Nat × List Int)
  | [], values, operators, head => .ok (values, operators, head)
  | (i, sym) :: rest, values, operators, head =>
    match sym2arity sym with
    | none => .error .unknownSymbol
    | some 0 => parseGo input rest (i :: values) operators head
    | some (_ + 1) =>
      match reduceOps input sym operators values head with
      | .error e => .error e
      | .ok (operators', values', head') => parseGo input rest values' (i :: operators') head'

/-- `SCAN.parse`: run the scan, drain the operator stack, pop the unique
remaining value as root (its head becomes `-1`), and require the value
stack to be empty afterwards (`assert len(values) == 0`). -/
def parse (input : List String) : Except ParseError (List Int) :=
  match parseGo input input.enum [] [] (List.replicate input.length (-1)) with
  | .error e => .error e
  | .ok (values, operators, head) =>
    match drainOps input operators values head with
    | .error e => .error e
    | .ok (values', head') =>
      match values' with
      | [] => .error .malformedSequence
      | root :: restValues =>
        match restValues with
        | [] => .ok (head'.set root (-1))
        | _ :: _ => .error .malformedSequence

/-- The loop body of `SCAN.transform_input`, iterating over the pairs of
`enumerate(input[:])` (indices and words of the ORIGINAL list) while
mutating the working copy `cur` in place: when the original word at `i`
is a turn-repeat word, `cur[i] := cur[i+1]; cur[i+1] := w`; reading
`cur[i+1]` past the end is a Python IndexError, modelled as `none`. -/
def transformGo : List (Nat × String) → List String → Option (List String)
  | [], cur => some cur
  | (i, w) :: rest, cur =>
    if w ∈ turn_times_word then
      match cur.get? (i + 1) with
      | none => none
      | some nxt => transformGo rest ((cur.set i nxt).set (i + 1) w)
    else transformGo rest cur

/-- `SCAN.transform_input` (the spec's `normalize`): one left-to-right
pass swapping each turn-repeat word with the token after it. -/
def transform_input (input : List String) : Option (List String) :=
  transformGo input.enum input

/-- Reachability along the parent-pointer array: `Reaches head c r` holds
when following `head` from position `c` arrives at position `r`. -/
inductive Reaches (head : List Int) : Nat → Nat → Prop
  | refl (c : Nat) : Reaches head c c
  | step {c p r : Nat} : head.get? c = some (p : Int) → Reaches head p r → Reaches head c r

/-- The word paired at each position of `List.enumFrom` is a member of the
underlying list. -/
theorem snd_mem_of_mem_enumFrom {α : Type _} :
    ∀ (l : List α) (n : Nat) (p : Nat × α), p ∈ List.enumFrom n l → p.2 ∈ l
  | [], _, _, h => by simp [List.enumFrom] at h
  | a :: l, n, p, h => by
    simp only [List.enumFrom, List.mem_cons] at h
    rcases h with h | h
    · simp [h]
    · exact List.mem_cons_of_mem _ (snd_mem_of_mem_enumFrom l (n + 1) p h)

/-- Each pair of `List.enumFrom n l` records the element found at its own
index: indices start at `n` and `l.get? (i - n)` recovers the word. -/
theorem get?_of_mem_enumFrom {α : Type _} :
    ∀ (l : List α) (n : Nat) (p : Nat × α), p ∈ List.enumFrom n l →
      l.get? (p.1 - n) = some p.2 ∧ n ≤ p.1
  | [], _, _, h => by simp [List.enumFrom] at h
  | a :: l, n, p, h => by
    simp only [List.enumFrom, List.mem_cons] at h
    rcases h with h | h
    · subst h; simp
    · obtain ⟨h1, h2⟩ := get?_of_mem_enumFrom l (n + 1) p h
      refine ⟨?_, by omega⟩
      have hidx : p.1 - n = (p.1 - (n + 1)) + 1 := by omega
      rw [hidx]
      simpa using h1

/-- A pass of `transformGo` over pairs none of whose words are turn-repeat
words leaves the working copy untouched. -/
theorem transformGo_skip :
    ∀ (pairs : List (Nat × String)) (cur : List String),
      (∀ p ∈ pairs, p.2 ∉ turn_times_word) → transformGo pairs cur = some cur
  | [], _, _ => rfl
  | (i, w) :: rest, cur, h => by
    have hw : w ∉ turn_times_word := h (i, w) (by simp)
    rw [transformGo, if_neg hw]
    exact transformGo_skip rest cur fun p hp => h p (by simp [hp])

/-- `transformGo` succeeds and preserves length whenever every turn-repeat
pair has a successor index inside the working copy. -/
theorem transformGo_total :
    ∀ (pairs : List (Nat × String)) (cur : List String),
      (∀ p ∈ pairs, p.2 ∈ turn_times_word → p.1 + 1 < cur.length) →
      ∃ u, transformGo pairs cur = some u ∧ u.length = cur.length
  | [], cur, _ => ⟨cur, rfl, rfl⟩
  | (i, w) :: rest, cur, h => by
    by_cases hw : w ∈ turn_times_word
    · have hlt : i + 1 < cur.length := h (i, w) (by simp) hw
      obtain ⟨nxt, hn⟩ : ∃ nxt, cur.get? (i + 1) = some nxt :=
        ⟨cur.get ⟨i + 1, hlt⟩, List.get?_eq_get hlt⟩
      have hlen : ((cur.set i nxt).set (i + 1) w).length = cur.length := by simp
      obtain ⟨u, hu, hul⟩ := transformGo_total rest ((cur.set i nxt).set (i + 1) w)
        (fun p hp hptt => by rw [hlen]; exact h p (by simp [hp]) hptt)
      exact ⟨u, by rw [transformGo, if_pos hw, hn]; exact hu, by rw [hul, hlen]⟩
    · obtain ⟨u, hu, hul⟩ := transformGo_total rest cur fun p hp => h p (by simp [hp])
      exact ⟨u, by rw [transformGo, if_neg hw]; exact hu, hul⟩

/-- Specification-side description of the normalizer's contract (§4.2 of
the spec): swap every turn-repeat word with the single token following
it, in one left-to-right pass that never re-examines a swapped pair. -/
def swapAll : List String → List String
  | [] => []
  | [x] => [x]
  | x :: y :: rest =>
    if x ∈ turn_times_word then y :: x :: swapAll rest
    else x :: swapAll (y :: rest)

theorem swapAll_length : ∀ (t : List String), (swapAll t).length = t.length
  | [] => rfl
  | [_] => rfl
  | x :: y :: rest => by
    by_cases h : x ∈ turn_times_word
    · simp [swapAll, h, swapAll_length rest]
    · simp [swapAll, h, swapAll_length (y :: rest)]

theorem swapAll_perm : ∀ (t : List String), (swapAll t).Perm t
  | [] => List.Perm.refl _
  | [x] => List.Perm.refl _
  | x :: y :: rest => by
    by_cases h : x ∈ turn_times_word
    · rw [swapAll, if_pos h]
      exact (((swapAll_perm rest).cons x).cons y).trans (List.Perm.swap x y rest)
    · rw [swapAll, if_neg h]
      exact (swapAll_perm (y :: rest)).cons x

/-- Positional content of `swapAll`: when every turn-repeat word is
followed by a non-turn-repeat word, each turn-repeat word ends up right
after its argument, which takes over the turn-repeat word's position. -/
theorem swapAll_get? :
    ∀ (t : List String),
      (∀ i a, t.get? i = some a → a ∈ turn_times_word →
        ∃ b, t.get? (i + 1) = some b ∧ b ∉ turn_times_word) →
      ∀ i a, t.get? i = some a → a ∈ turn_times_word →
        (swapAll t).get? i = t.get? (i + 1) ∧ (swapAll t).get? (i + 1) = some a
  | [], _, i, a, h, _ => by simp at h
  | [x], hP, i, a, h, hm => by
    rcases i with _ | n
    · have hax : x = a := by simpa using h
      subst hax
      obtain ⟨b, hb, -⟩ := hP 0 x rfl hm
      simp at hb
    · simp at h
  | x :: y :: rest, hP, i, a, h, hm => by
    by_cases hx : x ∈ turn_times_word
    · obtain ⟨b, hb, hbm⟩ := hP 0 x rfl hx
      have hby : y = b := by simpa using hb
      subst hby
      rw [swapAll, if_pos hx]
      rcases i with _ | _ | n
      · have hax : x = a := by simpa using h
        subst hax
        exact ⟨rfl, rfl⟩
      · have hay : y = a := by simpa using h
        subst hay
        exact absurd hm hbm
      · have hP' : ∀ j c, rest.get? j = some c → c ∈ turn_times_word →
            ∃ b, rest.get? (j + 1) = some b ∧ b ∉ turn_times_word := by
          intro j c hj hc
          simpa using hP (j + 2) c (by simpa using hj) hc
        have ih := swapAll_get? rest hP' n a (by simpa using h) hm
        simpa using ih
    · rw [swapAll, if_neg hx]
      rcases i with _ | n
      · have hax : x = a := by simpa using h
        subst hax
        exact absurd hm hx
      · have hP' : ∀ j c, (y :: rest).get? j = some c → c ∈ turn_times_word →
            ∃ b, (y :: rest).get? (j + 1) = some b ∧ b ∉ turn_times_word := by
          intro j c hj hc
          simpa using hP (j + 1) c (by simpa using hj) hc
        have ih := swapAll_get? (y :: rest) hP' n a (by simpa using h) hm
        simpa using ih
  termination_by t => t.length

theorem get?_append_plus {α : Type _} :
    ∀ (l₁ l₂ : List α) (m : Nat), (l₁ ++ l₂).get? (l₁.length + m) = l₂.get? m
  | [], _, _ => by simp
  | a :: l₁, l₂, m => by
    have hidx : (a :: l₁).length + m = (l₁.length + m) + 1 := by
      simp [Nat.add_right_comm]
    rw [List.cons_append, hidx, List.get?_cons_succ]
    exact get?_append_plus l₁ l₂ m

theorem set_append_plus {α : Type _} :
    ∀ (l₁ l₂ : List α) (m : Nat) (x : α),
      (l₁ ++ l₂).set (l₁.length + m) x = l₁ ++ l₂.set m x
  | [], _, _, _ => by simp
  | a :: l₁, l₂, m, x => by
    have hidx : (a :: l₁).length + m = (l₁.length + m) + 1 := by
      simp [Nat.add_right_comm]
    rw [List.cons_append, hidx]
    show a :: (l₁ ++ l₂).set (l₁.length + m) x = a :: (l₁ ++ l₂.set m x)
    rw [set_append_plus l₁ l₂ m x]

theorem set_append_zero {α : Type _} (l₁ l₂ : List α) (x : α) :
    (l₁ ++ l₂).set l₁.length x = l₁ ++ l₂.set 0 x := by
  have h := set_append_plus l₁ l₂ 0 x
  rwa [Nat.add_zero] at h

/-- Refinement of the normalizer against its contract: on a sequence whose
turn-repeat words are all immediately followed by a non-turn-repeat word,
the in-place pass of `transform_input` computes exactly the clean adjacent
swaps of `swapAll`.  `done` is the already-processed copy prefix. -/
theorem transformGo_swapAll :
    ∀ (rest done : List String),
      (∀ j a, rest.get? j = some a → a ∈ turn_times_word →
        ∃ b, rest.get? (j + 1) = some b ∧ b ∉ turn_times_word) →
      transformGo (List.enumFrom done.length rest) (done ++ rest) =
        some (done ++ swapAll rest)
  | [], done, _ => by simp [List.enumFrom, transformGo, swapAll]
  | [x], done, hP => by
    have hx : x ∉ turn_times_word := by
      intro hx
      obtain ⟨b, hb, -⟩ := hP 0 x rfl hx
      simp at hb
    rw [List.enumFrom_cons, transformGo, if_neg hx]
    show transformGo (List.enumFrom (done.length + 1) []) (done ++ [x]) = some (done ++ swapAll [x])
    simp [List.enumFrom, transformGo, swapAll]
  | x :: y :: rest', done, hP => by
    by_cases hx : x ∈ turn_times_word
    · obtain ⟨b, hb, hbm⟩ := hP 0 x rfl hx
      have hby : y = b := by simpa using hb
      subst hby
      rw [List.enumFrom_cons, List.enumFrom_cons, transformGo, if_pos hx]
      have hget : (done ++ x :: y :: rest').get? (done.length + 1) = some y := by
        rw [get?_append_plus done (x :: y :: rest') 1]
        rfl
      rw [hget]
      have hset : ((done ++ x :: y :: rest').set done.length y).set (done.length + 1) x
          = done ++ y :: x :: rest' := by
        rw [set_append_zero done (x :: y :: rest') y]
        show (done ++ y :: y :: rest').set (done.length + 1) x = done ++ y :: x :: rest'
        rw [set_append_plus done (y :: y :: rest') 1 x]
        rfl
      show transformGo ((done.length + 1, y) :: List.enumFrom (done.length + 2) rest')
          (((done ++ x :: y :: rest').set done.length y).set (done.length + 1) x)
          = some (done ++ swapAll (x :: y :: rest'))
      rw [hset, transformGo, if_neg hbm]
      have hrec := transformGo_swapAll rest' (done ++ [y, x]) (fun j a hj ha => by
        simpa using hP (j + 2) a (by simpa using hj) ha)
      rw [show (done ++ [y, x]).length = done.length + 2 by simp, List.append_assoc] at hrec
      simp only [List.cons_append, List.nil_append] at hrec
      rw [hrec, swapAll, if_pos hx]
      simp
    · rw [List.enumFrom_cons, transformGo, if_neg hx]
      have hrec := transformGo_swapAll (y :: rest') (done ++ [x]) (fun j a hj ha => by
        simpa using hP (j + 1) a (by simpa using hj) ha)
      rw [show (done ++ [x]).length = done.length + 1 by simp, List.append_assoc] at hrec
      simp only [List.cons_append, List.nil_append] at hrec
      rw [hrec, swapAll, if_neg hx]
      simp

/-! ### List update helpers for the parser proofs -/

theorem get?_set_pos {α : Type _} :
    ∀ (l : List α) (n : Nat) (x : α), n < l.length → (l.set n x).get? n = some x
  | [], _, _, h => absurd h (by simp)
  | _ :: _, 0, _, _ => rfl
  | _ :: l, n + 1, x, h => get?_set_pos l n x (by simpa using h)

theorem get?_set_neq {α : Type _} :
    ∀ (l : List α) (n m : Nat) (x : α), n ≠ m → (l.set n x).get? m = l.get? m
  | [], _, _, _, _ => by simp
  | _ :: _, 0, 0, _, h => absurd rfl h
  | _ :: _, 0, _ + 1, _, _ => rfl
  | _ :: _, _ + 1, 0, _, _ => rfl
  | _ :: l, n + 1, m + 1, x, h =>
    get?_set_neq l n m x fun e => h (by rw [e])

theorem set_of_get? {α : Type _} :
    ∀ (l : List α) (n : Nat) (x : α), l.get? n = some x → l.set n x = l
  | [], _, _, h => by simp at h
  | a :: l, 0, x, h => by
    have hax : a = x := by simpa using h
    subst hax
    rfl
  | a :: l, n + 1, x, h => by
    show a :: l.set n x = a :: l
    rw [set_of_get? l n x (by simpa using h)]

/-- Updating one entry moves one unit of multiplicity from the old entry
value to the new one. -/
theorem count_set_of_get? :
    ∀ (l : List Int) (n : Nat) (a b x : Int), l.get? n = some a →
      (l.set n b).count x + (if a = x then 1 else 0) =
        l.count x + (if b = x then 1 else 0)
  | [], _, _, _, _, h => by simp at h
  | c :: l, 0, a, b, x, h => by
    have hca : c = a := by simpa using h
    subst hca
    show (b :: l).count x + _ = _
    simp only [List.count_cons, beq_iff_eq]
    split_ifs <;> omega
  | c :: l, n + 1, a, b, x, h => by
    have ih := count_set_of_get? l n a b x (by simpa using h)
    show (c :: l.set n b).count x + _ = _
    simp only [List.count_cons, beq_iff_eq]
    split_ifs at ih ⊢ <;> omega

/-- Edge-preserving modifications preserve reachability: a step of
`Reaches` only looks at entries holding non-negative values. -/
theorem reaches_mono {head head' : List Int}
    (hpres : ∀ (x p : Nat), head.get? x = some ((p : Nat) : Int) →
      head'.get? x = some ((p : Nat) : Int)) :
    ∀ {c r : Nat}, Reaches head c r → Reaches head' c r := by
  intro c r h
  induction h with
  | refl c => exact .refl c
  | step h1 _ ih => exact .step (hpres _ _ h1) ih

/-- Extend a reachability chain by one edge leaving its endpoint. -/
theorem reaches_snoc {head : List Int} {c r p : Nat} (h : Reaches head c r)
    (hr : head.get? r = some ((p : Nat) : Int)) : Reaches head c p := by
  induction h with
  | refl c => exact .step hr (.refl p)
  | step h1 _ ih => exact .step h1 (ih hr)

/-- Arity of the symbol at position `p` of the input (0 for positions or
symbols outside the table). -/
def arityAt (input : List String) (p : Nat) : Nat :=
  ((input.get? p).bind sym2arity).getD 0

/-- Every symbol of positive arity is in the precedence table: the Python
`while` condition's `op2precedence` lookups never fail on operator
symbols. -/
theorem prec_of_arity_pos (s : String) (k : Nat) (h : sym2arity s = some (k + 1)) :
    ∃ q, op2precedence s = some q := by
  unfold sym2arity sym2prog at h
  by_cases h1 : s = "turn"
  · rw [if_pos h1] at h; simp [Prog.arity] at h
  rw [if_neg h1] at h
  by_cases h2 : s = "walk"
  · rw [if_pos h2] at h; simp [Prog.arity] at h
  rw [if_neg h2] at h
  by_cases h3 : s = "look"
  · rw [if_pos h3] at h; simp [Prog.arity] at h
  rw [if_neg h3] at h
  by_cases h4 : s = "run"
  · rw [if_pos h4] at h; simp [Prog.arity] at h
  rw [if_neg h4] at h
  by_cases h5 : s = "jump"
  · rw [if_pos h5] at h; simp [Prog.arity] at h
  rw [if_neg h5] at h
  by_cases h6 : s = "left"
  · subst h6; exact ⟨4, by decide⟩
  rw [if_neg h6] at h
  by_cases h7 : s = "right"
  · subst h7; exact ⟨4, by decide⟩
  rw [if_neg h7] at h
  by_cases h8 : s = "opposite"
  · subst h8; exact ⟨3, by decide⟩
  rw [if_neg h8] at h
  by_cases h9 : s = "around"
  · subst h9; exact ⟨3, by decide⟩
  rw [if_neg h9] at h
  by_cases h10 : s = "twice"
  · subst h10; exact ⟨2, by decide⟩
  rw [if_neg h10] at h
  by_cases h11 : s = "thrice"
  · subst h11; exact ⟨2, by decide⟩
  rw [if_neg h11] at h
  by_cases h12 : s = "and"
  · subst h12; exact ⟨1, by decide⟩
  rw [if_neg h12] at h
  by_cases h13 : s = "after"
  · subst h13; exact ⟨1, by decide⟩
  rw [if_neg h13] at h
  simp at h

/-! ### The parse-loop invariant -/

/-- Invariant of the `parse` state after the scan has consumed positions
`0, ..., i-1`.  `values` and `operators` are the stacks (list head = stack
top), `head` the partially built parent-pointer array. -/
structure Inv (input : List String) (i : Nat) (values operators : List Nat)
    (head : List Int) : Prop where
  hlen : head.length = input.length
  hile : i ≤ input.length
  vlt : ∀ v ∈ values, v < i
  olt : ∀ op ∈ operators, op < i
  oarity : ∀ op ∈ operators, ∃ s k, input.get? op = some s ∧ sym2arity s = some (k + 1)
  karity : ∀ p, p < i → ∃ s k, input.get? p = some s ∧ sym2arity s = some k
  nodup : (values ++ operators).Nodup
  hopen : ∀ c, c ∈ values ∨ c ∈ operators ∨ (i ≤ c ∧ c < input.length) →
    head.get? c = some (-1)
  hrange : ∀ (c p : Nat), head.get? c = some ((p : Int)) → p < i
  hclosed : ∀ c, c < i → c ∉ values → c ∉ operators →
    ∃ p : Nat, head.get? c = some ((p : Int))
  reach : ∀ c, c < i → c ∉ operators → ∃ v ∈ values, Reaches head c v
  counts : ∀ p, p < input.length →
    head.count ((p : Int)) = if p < i ∧ p ∉ operators then arityAt input p else 0

/-- Popping more values than the stack holds underflows: the Python
IndexError, i.e. `MalformedSequenceError`. -/
theorem reduceValues_underflow :
    ∀ (k : Nat) (values : List Nat) (op : Nat) (head : List Int),
      values.length < k → reduceValues op k values head = .error .malformedSequence
  | 0, _, _, _, h => absurd h (by omega)
  | _ + 1, [], _, _, _ => rfl
  | k + 1, v :: values, op, head, h =>
    reduceValues_underflow k values op (head.set v ((op : Int))) (by simpa using h)

/-- Successful reduction: with `k` values available, `reduceValues` pops
the top `k`, pointing each of their heads at `op`, and leaves every other
entry alone; `k` units of multiplicity move from `-1` to `op`. -/
theorem reduceValues_ok :
    ∀ (k : Nat) (values : List Nat) (op : Nat) (head : List Int),
      values.Nodup →
      (∀ v ∈ values, head.get? v = some (-1)) →
      (∀ v ∈ values, v < head.length) →
      k ≤ values.length →
      ∃ head', reduceValues op k values head = .ok (values.drop k, head') ∧
        head'.length = head.length ∧
        (∀ c : Nat, c ∉ values.take k → head'.get? c = head.get? c) ∧
        (∀ v ∈ values.take k, head'.get? v = some ((op : Int))) ∧
        (∀ x : Int, head'.count x + (if (-1 : Int) = x then k else 0) =
          head.count x + (if ((op : Int)) = x then k else 0))
  | 0, values, op, head, _, _, _, _ =>
    ⟨head, rfl, rfl, fun _ _ => rfl, by simp, by simp⟩
  | k + 1, [], _, _, _, _, _, hk => absurd hk (by simp)
  | k + 1, v :: values, op, head, hnd, hop, hlt, hk => by
    have hv_lt : v < head.length := hlt v (by simp)
    have hv_op : head.get? v = some (-1) := hop v (by simp)
    have hv_notin : v ∉ values := (List.nodup_cons.mp hnd).1
    obtain ⟨head', hrun, hlen', hpres, htaken, hcount⟩ :=
      reduceValues_ok k values op (head.set v ((op : Int)))
        (List.nodup_cons.mp hnd).2
        (fun u hu => by
          rw [get?_set_neq _ _ _ _ fun e => hv_notin (by rw [e]; exact hu)]
          exact hop u (by simp [hu]))
        (fun u hu => by rw [List.length_set]; exact hlt u (by simp [hu]))
        (by simpa using hk)
    refine ⟨head', hrun, by rw [hlen', List.length_set], ?_, ?_, ?_⟩
    · intro c hc
      have hcv : c ≠ v := fun e => hc (by simp [e])
      have hc' : c ∉ values.take k := fun e => hc (by simp [e])
      rw [hpres c hc', get?_set_neq _ _ _ _ fun e => hcv e.symm]
    · intro u hu
      rcases (by simpa using hu : u = v ∨ u ∈ values.take k) with rfl | hu'
      · rw [hpres u fun hvt => hv_notin (List.take_subset k values hvt),
          get?_set_pos _ _ _ hv_lt]
      · exact htaken u hu'
    · intro x
      have hstep := count_set_of_get? head v (-1) ((op : Int)) x hv_op
      have hcx := hcount x
      split_ifs at hcx hstep ⊢ <;> omega

/-- One reduction of the topmost pending operator preserves the
invariant: the operator consumes its arity-many values and is pushed back
onto the value stack as a completed unit. -/
theorem reduce_step (input : List String) (i op : Nat) (ops values : List Nat)
    (head : List Int) (s : String) (k : Nat)
    (hInv : Inv input i values (op :: ops) head)
    (hs : input.get? op = some s) (hk : sym2arity s = some k) :
    reduceValues op k values head = .error .malformedSequence ∨
    ∃ head', reduceValues op k values head = .ok (values.drop k, head') ∧
      Inv input i (op :: values.drop k) ops head' := by
  obtain ⟨hlen, hile, vlt, olt, oarity, karity, nodup, hopen, hrange, hclosed, reach,
    counts⟩ := hInv
  obtain ⟨hv_nd, hoo_nd, hdisj⟩ := List.nodup_append.mp nodup
  have hop_not_v : op ∉ values := fun hv => hdisj hv (by simp)
  have hop_not_ops : op ∉ ops := (List.nodup_cons.mp hoo_nd).1
  have hops_nd : ops.Nodup := (List.nodup_cons.mp hoo_nd).2
  by_cases hkv : k ≤ values.length
  case neg =>
    exact Or.inl (reduceValues_underflow k values op head (by omega))
  case pos =>
  right
  obtain ⟨head', hrun, hlen', hpres, htaken, hcount⟩ :=
    reduceValues_ok k values op head hv_nd
      (fun v hv => hopen v (Or.inl hv))
      (fun v hv => by rw [hlen]; exact lt_of_lt_of_le (vlt v hv) hile)
      hkv
  have hTsub : ∀ u ∈ values.take k, u ∈ values := fun u hu => List.take_subset k values hu
  have hDsub : ∀ u ∈ values.drop k, u ∈ values := fun u hu => List.drop_subset k values hu
  have hTD : (values.take k).Disjoint (values.drop k) :=
    List.disjoint_take_drop hv_nd (le_refl k)
  have hop_lt : op < i := olt op (by simp)
  have hop_not_T : op ∉ values.take k := fun h => hop_not_v (hTsub _ h)
  have hD_nd : (values.drop k).Nodup := (List.drop_sublist k values).nodup hv_nd
  have hedge : ∀ (x p : Nat), head.get? x = some ((p : Int)) →
      head'.get? x = some ((p : Int)) := by
    intro x p hx
    by_cases hxT : x ∈ values.take k
    · rw [hopen x (Or.inl (hTsub _ hxT))] at hx
      exfalso
      have : (-1 : Int) = (p : Int) := by injection hx
      omega
    · rw [hpres x hxT]; exact hx
  refine ⟨head', hrun, ?_, hile, ?_, ?_, ?_, karity, ?_, ?_, ?_, ?_, ?_, ?_⟩
  · rw [hlen', hlen]
  · -- vlt
    intro v hv
    rcases List.mem_cons.mp hv with rfl | hv'
    · exact hop_lt
    · exact vlt v (hDsub _ hv')
  · exact fun o ho => olt o (by simp [ho])
  · exact fun o ho => oarity o (by simp [ho])
  · -- nodup
    show (op :: (values.drop k ++ ops)).Nodup
    rw [List.nodup_cons]
    refine ⟨?_, List.nodup_append.mpr ⟨hD_nd, hops_nd, ?_⟩⟩
    · intro hmem
      rcases List.mem_append.mp hmem with h | h
      · exact hop_not_v (hDsub _ h)
      · exact hop_not_ops h
    · exact fun a haD haops => hdisj (hDsub _ haD) (by simp [haops])
  · -- hopen
    intro c hc
    rcases hc with hc | hc | hc
    · rcases List.mem_cons.mp hc with rfl | hc'
      · rw [hpres c hop_not_T]
        exact hopen c (Or.inr (Or.inl (by simp)))
      · rw [hpres c fun hT => hTD hT hc']
        exact hopen c (Or.inl (hDsub _ hc'))
    · rw [hpres c fun hT => hdisj (hTsub _ hT) (by simp [hc])]
      exact hopen c (Or.inr (Or.inl (by simp [hc])))
    · rw [hpres c fun hT => absurd (vlt _ (hTsub _ hT)) (by omega)]
      exact hopen c (Or.inr (Or.inr hc))
  · -- hrange
    intro c p hcp
    by_cases hcT : c ∈ values.take k
    · rw [htaken c hcT] at hcp
      have : ((op : Int)) = (p : Int) := by injection hcp
      have : op = p := by exact_mod_cast this
      omega
    · rw [hpres c hcT] at hcp
      exact hrange c p hcp
  · -- hclosed
    intro c hci hcv hcops
    by_cases hcT : c ∈ values.take k
    · exact ⟨op, htaken c hcT⟩
    · have hcD : c ∉ values.drop k := fun h => hcv (by simp [h])
      have hcvals : c ∉ values := by
        rw [← List.take_append_drop k values]
        intro hmem
        rcases List.mem_append.mp hmem with h | h
        · exact hcT h
        · exact hcD h
      have hco : c ≠ op := fun e => hcv (by simp [e])
      obtain ⟨p, hp⟩ := hclosed c hci hcvals
        (fun hmem => (List.mem_cons.mp hmem).elim hco hcops)
      exact ⟨p, by rw [hpres c hcT]; exact hp⟩
  · -- reach
    intro c hci hcops
    by_cases hco : c = op
    · exact ⟨op, by simp, hco ▸ Reaches.refl c⟩
    by_cases hcT : c ∈ values.take k
    · exact ⟨op, by simp, .step (htaken c hcT) (.refl op)⟩
    · obtain ⟨v, hv, hr⟩ := reach c hci
        (fun hmem => (List.mem_cons.mp hmem).elim hco hcops)
      have hr' : Reaches head' c v := reaches_mono hedge hr
      by_cases hvT : v ∈ values.take k
      · exact ⟨op, by simp, reaches_snoc hr' (htaken v hvT)⟩
      · have hvD : v ∈ values.drop k := by
          rw [← List.take_append_drop k values] at hv
          exact (List.mem_append.mp hv).resolve_left hvT
        exact ⟨v, by simp [hvD], hr'⟩
  · -- counts
    intro p hpn
    have hcnt := hcount ((p : Int))
    rw [if_neg (by omega : ¬((-1 : Int) = (p : Int)))] at hcnt
    by_cases hpo : p = op
    · rw [if_pos (by exact_mod_cast hpo.symm)] at hcnt
      have hzero := counts p hpn
      rw [if_neg (fun hand => hand.2 (by simp [hpo]))] at hzero
      have hA : arityAt input p = k := by
        have hs' : input[op]? = some s := by rw [← List.get?_eq_getElem?]; exact hs
        rw [hpo]; simp [arityAt, hs', hk]
      rw [if_pos ⟨by rw [hpo]; exact hop_lt, by rw [hpo]; exact hop_not_ops⟩, hA]
      omega
    · rw [if_neg (fun e => hpo (by exact_mod_cast e.symm))] at hcnt
      have hiff : (p < i ∧ p ∉ op :: ops) ↔ (p < i ∧ p ∉ ops) := by
        constructor
        · exact fun ⟨a, b⟩ => ⟨a, fun hb => b (by simp [hb])⟩
        · exact fun ⟨a, b⟩ => ⟨a, fun hb => (List.mem_cons.mp hb).elim hpo b⟩
      have hc2 := counts p hpn
      rw [if_congr hiff rfl rfl] at hc2
      rw [← hc2]
      omega

/-- The `while` loop preserves the invariant: it either underflows with a
`malformedSequence` error or returns a state satisfying the invariant. -/
theorem reduceOps_spec (input : List String) (i : Nat) (sym : String) (q : Nat)
    (hq : op2precedence sym = some q) :
    ∀ (operators values : List Nat) (head : List Int),
      Inv input i values operators head →
      reduceOps input sym operators values head = .error .malformedSequence ∨
      ∃ operators' values' head',
        reduceOps input sym operators values head = .ok (operators', values', head') ∧
        Inv input i values' operators' head'
  | [], values, head, hInv => Or.inr ⟨[], values, head, rfl, hInv⟩
  | op :: ops, values, head, hInv => by
    obtain ⟨s, k1, hgets, harity⟩ := hInv.oarity op (by simp)
    obtain ⟨pr, hpr⟩ := prec_of_arity_pos s k1 harity
    by_cases hcmp : q ≤ pr
    · rcases reduce_step input i op ops values head s (k1 + 1) hInv hgets harity with
        herr | ⟨head', hrun, hInv'⟩
      · left
        simp only [reduceOps, hgets, hpr, hq, if_pos hcmp, harity, herr]
      · rcases reduceOps_spec input i sym q hq ops (op :: values.drop (k1 + 1)) head' hInv'
          with herr2 | ⟨o2, v2, h2, hok2, hInv2⟩
        · left
          simp only [reduceOps, hgets, hpr, hq, if_pos hcmp, harity, hrun]
          exact herr2
        · right
          refine ⟨o2, v2, h2, ?_, hInv2⟩
          simp only [reduceOps, hgets, hpr, hq, if_pos hcmp, harity, hrun]
          exact hok2
    · right
      refine ⟨op :: ops, values, head, ?_, hInv⟩
      simp only [reduceOps, hgets, hpr, hq, if_neg hcmp]

/-- The drain loop after the scan preserves the invariant and empties the
operator stack. -/
theorem drainOps_spec (input : List String) (i : Nat) :
    ∀ (operators values : List Nat) (head : List Int),
      Inv input i values operators head →
      drainOps input operators values head = .error .malformedSequence ∨
      ∃ values' head', drainOps input operators values head = .ok (values', head') ∧
        Inv input i values' [] head'
  | [], values, head, hInv => Or.inr ⟨values, head, rfl, hInv⟩
  | op :: ops, values, head, hInv => by
    obtain ⟨s, k1, hgets, harity⟩ := hInv.oarity op (by simp)
    rcases reduce_step input i op ops values head s (k1 + 1) hInv hgets harity with
      herr | ⟨head', hrun, hInv'⟩
    · left
      simp only [drainOps, hgets, harity, herr]
    · rcases drainOps_spec input i ops (op :: values.drop (k1 + 1)) head' hInv' with
        herr2 | ⟨v2, h2, hok2, hInv2⟩
      · left
        simp only [drainOps, hgets, harity, hrun]
        exact herr2
      · right
        refine ⟨v2, h2, ?_, hInv2⟩
        simp only [drainOps, hgets, harity, hrun]
        exact hok2

theorem drop_eq_cons_get? {α : Type _} :
    ∀ (l : List α) (i : Nat) (x : α) (r : List α), l.drop i = x :: r →
      l.get? i = some x ∧ l.drop (i + 1) = r
  | [], _, _, _, h => by simp at h
  | a :: l, 0, x, r, h => by
    injection h with h1 h2
    subst h1; subst h2
    exact ⟨rfl, rfl⟩
  | a :: l, i + 1, x, r, h => drop_eq_cons_get? l i x r (by simpa using h)

/-- Shifting an arity-0 symbol onto the value stack preserves the
invariant and advances the scan position. -/
theorem shift_value (input : List String) (i : Nat) (values operators : List Nat)
    (head : List Int) (sym : String)
    (hInv : Inv input i values operators head)
    (hget : input.get? i = some sym) (h0 : sym2arity sym = some 0)
    (hilt : i < input.length) :
    Inv input (i + 1) (i :: values) operators head := by
  obtain ⟨hlen, hile, vlt, olt, oarity, karity, nodup, hopen, hrange, hclosed, reach,
    counts⟩ := hInv
  refine ⟨hlen, hilt, ?_, ?_, oarity, ?_, ?_, ?_, ?_, ?_, ?_, ?_⟩
  · intro v hv
    rcases List.mem_cons.mp hv with rfl | hv'
    · omega
    · have := vlt v hv'; omega
  · intro op hop; have := olt op hop; omega
  · intro p hp
    by_cases hpi : p = i
    · exact ⟨sym, 0, hpi ▸ hget, h0⟩
    · exact karity p (by omega)
  · show (i :: (values ++ operators)).Nodup
    rw [List.nodup_cons]
    refine ⟨?_, nodup⟩
    intro hmem
    rcases List.mem_append.mp hmem with h | h
    · exact absurd (vlt i h) (by omega)
    · exact absurd (olt i h) (by omega)
  · intro c hc
    rcases hc with hc | hc | hc
    · rcases List.mem_cons.mp hc with rfl | hc'
      · exact hopen c (Or.inr (Or.inr ⟨le_refl c, hilt⟩))
      · exact hopen c (Or.inl hc')
    · exact hopen c (Or.inr (Or.inl hc))
    · exact hopen c (Or.inr (Or.inr ⟨by omega, hc.2⟩))
  · intro c p hcp; have := hrange c p hcp; omega
  · intro c hci hcv hcops
    have hcne : c ≠ i := fun e => hcv (by simp [e])
    exact hclosed c (by omega) (fun h => hcv (by simp [h])) hcops
  · intro c hci hcops
    by_cases hci' : c = i
    · exact ⟨i, by simp, hci' ▸ Reaches.refl c⟩
    · obtain ⟨v, hv, hr⟩ := reach c (by omega) hcops
      exact ⟨v, by simp [hv], hr⟩
  · intro p hpn
    have hc := counts p hpn
    by_cases hpi : p = i
    · subst hpi
      rw [if_neg (fun hand => absurd hand.1 (by omega))] at hc
      have hio : p ∉ operators := fun h => absurd (olt p h) (by omega)
      have hA : arityAt input p = 0 := by
        have hg' : input[p]? = some sym := by rw [← List.get?_eq_getElem?]; exact hget
        simp [arityAt, hg', h0]
      rw [if_pos ⟨by omega, hio⟩, hA]
      exact hc
    · rw [hc]
      exact if_congr (by constructor <;> exact fun ⟨a, b⟩ => ⟨by omega, b⟩) rfl rfl

/-- Pushing the current operator position onto the operator stack
preserves the invariant and advances the scan position. -/
theorem shift_operator (input : List String) (i : Nat) (values operators : List Nat)
    (head : List Int) (sym : String) (k : Nat)
    (hInv : Inv input i values operators head)
    (hget : input.get? i = some sym) (hk : sym2arity sym = some (k + 1))
    (hilt : i < input.length) :
    Inv input (i + 1) values (i :: operators) head := by
  obtain ⟨hlen, hile, vlt, olt, oarity, karity, nodup, hopen, hrange, hclosed, reach,
    counts⟩ := hInv
  refine ⟨hlen, hilt, ?_, ?_, ?_, ?_, ?_, ?_, ?_, ?_, ?_, ?_⟩
  · intro v hv; have := vlt v hv; omega
  · intro op hop
    rcases List.mem_cons.mp hop with rfl | hop'
    · omega
    · have := olt op hop'; omega
  · intro op hop
    rcases List.mem_cons.mp hop with rfl | hop'
    · exact ⟨sym, k, hget, hk⟩
    · exact oarity op hop'
  · intro p hp
    by_cases hpi : p = i
    · exact ⟨sym, k + 1, hpi ▸ hget, hk⟩
    · exact karity p (by omega)
  · refine (List.perm_middle.nodup_iff).mpr ?_
    rw [List.nodup_cons]
    refine ⟨?_, nodup⟩
    intro hmem
    rcases List.mem_append.mp hmem with h | h
    · exact absurd (vlt i h) (by omega)
    · exact absurd (olt i h) (by omega)
  · intro c hc
    rcases hc with hc | hc | hc
    · exact hopen c (Or.inl hc)
    · rcases List.mem_cons.mp hc with rfl | hc'
      · exact hopen c (Or.inr (Or.inr ⟨le_refl c, hilt⟩))
      · exact hopen c (Or.inr (Or.inl hc'))
    · exact hopen c (Or.inr (Or.inr ⟨by omega, hc.2⟩))
  · intro c p hcp; have := hrange c p hcp; omega
  · intro c hci hcv hcops
    have hcne : c ≠ i := fun e => hcops (by simp [e])
    exact hclosed c (by omega) hcv (fun h => hcops (by simp [h]))
  · intro c hci hcops
    have hcne : c ≠ i := fun e => hcops (by simp [e])
    have hcops' : c ∉ operators := fun h => hcops (by simp [h])
    exact reach c (by omega) hcops'
  · intro p hpn
    have hc := counts p hpn
    by_cases hpi : p = i
    · rw [if_neg (fun hand => absurd hand.1 (by omega))] at hc
      rw [if_neg (fun hand => hand.2 (by simp [hpi]))]
      exact hc
    · rw [hc]
      refine if_congr ?_ rfl rfl
      constructor
      · exact fun ⟨a, b⟩ => ⟨by omega, fun h => b ((List.mem_cons.mp h).elim (fun e => absurd e hpi) id)⟩
      · exact fun ⟨a, b⟩ => ⟨by omega, fun h => b (by simp [h])⟩

/-- The invariant holds initially: empty stacks, all heads `-1`. -/
theorem inv_init (input : List String) :
    Inv input 0 [] [] (List.replicate input.length (-1)) := by
  refine ⟨by simp, by simp, by simp, by simp, by simp, ?_, by simp, ?_, ?_, ?_, ?_, ?_⟩
  · intro p hp; omega
  · intro c hc
    rcases hc with hc | hc | hc
    · simp at hc
    · simp at hc
    · rw [List.get?_eq_getElem?, List.getElem?_replicate, if_pos hc.2]
  · intro c p hcp
    rw [List.get?_eq_getElem?, List.getElem?_replicate] at hcp
    by_cases hcn : c < input.length
    · rw [if_pos hcn] at hcp
      have h1 := Option.some.inj hcp
      omega
    · rw [if_neg hcn] at hcp
      simp at hcp
  · intro c hc; omega
  · intro c hc; omega
  · intro p hpn
    rw [if_neg (fun hand => absurd hand.1 (by omega))]
    rw [List.count_replicate, if_neg]
    intro hbeq
    rw [beq_iff_eq] at hbeq
    omega

/-- The scan loop: starting from a state satisfying the invariant at
position `i` with the rest of the input still to process, `parseGo`
either fails (`malformedSequence`, or `unknownSymbol` on an input symbol
outside the table) or ends in a state satisfying the invariant at the end
of the input. -/
theorem parseGo_spec (input : List String) :
    ∀ (rest : List String) (i : Nat) (values operators : List Nat) (head : List Int),
      input.drop i = rest →
      Inv input i values operators head →
      parseGo input (List.enumFrom i rest) values operators head =
          .error .malformedSequence ∨
      (∃ s, s ∈ input ∧ sym2arity s = none ∧
        parseGo input (List.enumFrom i rest) values operators head =
          .error .unknownSymbol) ∨
      ∃ values' operators' head',
        parseGo input (List.enumFrom i rest) values operators head =
          .ok (values', operators', head') ∧
        Inv input input.length values' operators' head'
  | [], i, values, operators, head, hdrop, hInv => by
    have hin : i = input.length := by
      have hl := congrArg List.length hdrop
      rw [List.length_drop] at hl
      have := hInv.hile
      simp at hl
      omega
    right; right
    exact ⟨values, operators, head, by rw [List.enumFrom]; rfl, hin ▸ hInv⟩
  | x :: rest', i, values, operators, head, hdrop, hInv => by
    obtain ⟨hgetx, hdrop'⟩ := drop_eq_cons_get? input i x rest' hdrop
    have hilt : i < input.length := by
      have hl := congrArg List.length hdrop
      rw [List.length_drop] at hl
      simp at hl
      omega
    rw [List.enumFrom_cons]
    cases harity : sym2arity x with
    | none =>
      right; left
      exact ⟨x, List.get?_mem hgetx, harity, by simp only [parseGo, harity]⟩
    | some k =>
      cases k with
      | zero =>
        have hInv' := shift_value input i values operators head x hInv hgetx harity hilt
        have ih := parseGo_spec input rest' (i + 1) (i :: values) operators head hdrop' hInv'
        simp only [parseGo, harity]
        exact ih
      | succ k1 =>
        obtain ⟨q, hq⟩ := prec_of_arity_pos x k1 harity
        rcases reduceOps_spec input i x q hq operators values head hInv with
          herr | ⟨o', v', h', hok, hInvR⟩
        · left
          simp only [parseGo, harity, herr]
        · have hInv' := shift_operator input i v' o' h' x k1 hInvR hgetx harity hilt
          have ih := parseGo_spec input rest' (i + 1) v' (i :: o') h' hdrop' hInv'
          simp only [parseGo, harity, hok]
          exact ih

/-- Complete classification of `parse`: it fails with `unknownSymbol` on
an input containing a symbol outside the table, fails with
`malformedSequence`, or succeeds with a head array that is a single
rooted tree spanning all positions with arity-many children under every
position. -/
theorem parse_classify (input : List String) :
    (∃ s, s ∈ input ∧ sym2arity s = none ∧ parse input = .error .unknownSymbol) ∨
    parse input = .error .malformedSequence ∨
    ∃ h, parse input = .ok h ∧ h.length = input.length ∧
      ∃ root, root < input.length ∧ h.get? root = some (-1) ∧
        (∀ c, c < input.length → c ≠ root →
          ∃ p, p < input.length ∧ h.get? c = some ((p : Int))) ∧
        (∀ c, c < input.length → Reaches h c root) ∧
        (∀ p, p < input.length → h.count ((p : Int)) = arityAt input p) := by
  have henum : input.enum = List.enumFrom 0 input := rfl
  have hdrop0 : input.drop 0 = input := rfl
  rcases parseGo_spec input input 0 [] [] (List.replicate input.length (-1)) hdrop0
      (inv_init input) with herr | ⟨s, hsmem, hsnone, herr⟩ | ⟨v', o', h', hok, hInvN⟩
  · right; left
    unfold parse
    rw [henum, herr]
  · left
    refine ⟨s, hsmem, hsnone, ?_⟩
    unfold parse
    rw [henum, herr]
  · rcases drainOps_spec input input.length o' v' h' hInvN with
      hderr | ⟨v2, h2, hdok, hInv2⟩
    · right; left
      unfold parse
      rw [henum]
      simp only [hok, hderr]
    · cases v2 with
      | nil =>
        right; left
        unfold parse
        rw [henum]
        simp only [hok, hdok]
      | cons root rest2 =>
        cases rest2 with
        | cons a rest3 =>
          right; left
          unfold parse
          rw [henum]
          simp only [hok, hdok]
        | nil =>
          right; right
          have hroot_mem : root ∈ [root] := by simp
          have hroot_open : h2.get? root = some (-1) :=
            hInv2.hopen root (Or.inl hroot_mem)
          have hset : h2.set root (-1) = h2 := set_of_get? h2 root (-1) hroot_open
          have hparse : parse input = .ok h2 := by
            unfold parse
            rw [henum]
            simp only [hok, hdok, hset]
          refine ⟨h2, hparse, hInv2.hlen, root, hInv2.vlt root hroot_mem, hroot_open,
            ?_, ?_, ?_⟩
          · intro c hc hcr
            obtain ⟨p, hp⟩ := hInv2.hclosed c hc (by simp [hcr]) (by simp)
            exact ⟨p, hInv2.hrange c p hp, hp⟩
          · intro c hc
            obtain ⟨v, hv, hr⟩ := hInv2.reach c hc (by simp)
            have hvr : v = root := by simpa using hv
            exact hvr ▸ hr
          · intro p hp
            have hc := hInv2.counts p hp
            rwa [if_pos ⟨hp, by simp⟩] at hc

/-! ### Claim theorems -/

/-- C3 counterexample: the semantic function of the base word `turn` is
`lambda: ()`, returning the empty tuple, not a one-element tuple. -/
theorem turn_semantics_not_singleton :
    (nullaryResult "turn").map List.length ≠ some 1 := by decide

/-- C3 (amended): four of the five arity-0 base action words (walk, look,
run, jump) have semantic functions returning one-element tuples with the
codes 1-4, indices into the fixed 7-entry output vocabulary whose index 0
holds the unused empty string; `turn` returns the empty tuple; the
direction words left/right prepend the codes 5-6. -/
theorem base_word_action_codes :
    nullaryResult "turn" = some [] ∧
    nullaryResult "walk" = some [1] ∧
    nullaryResult "look" = some [2] ∧
    nullaryResult "run" = some [3] ∧
    nullaryResult "jump" = some [4] ∧
    (∀ x, unaryApp "left" x = some (5 :: x)) ∧
    (∀ x, unaryApp "right" x = some (6 :: x)) ∧
    vocab_output.get? 0 = some "" ∧
    vocab_output.get? 1 = some "I_WALK" ∧
    vocab_output.get? 2 = some "I_LOOK" ∧
    vocab_output.get? 3 = some "I_RUN" ∧
    vocab_output.get? 4 = some "I_JUMP" ∧
    vocab_output.get? 5 = some "I_TURN_LEFT" ∧
    vocab_output.get? 6 = some "I_TURN_RIGHT" ∧
    vocab_output.length = 7 :=
  ⟨rfl, rfl, rfl, rfl, rfl, fun _ => rfl, fun _ => rfl,
   rfl, rfl, rfl, rfl, rfl, rfl, rfl, rfl⟩

/-- C7: `opposite` prepends the first element of its argument to the
argument, `around` repeats its argument four times, `and` concatenates its
two arguments in the given order, `after` in reversed order. -/
theorem turnRepeat_connector_semantics :
    (∀ a x, unaryApp "opposite" (a :: x) = some (a :: a :: x)) ∧
    (∀ x, unaryApp "around" x = some (x ++ x ++ x ++ x)) ∧
    (∀ x y, binaryApp "and" x y = some (x ++ y)) ∧
    (∀ x y, binaryApp "after" x y = some (y ++ x)) :=
  ⟨fun _ _ => rfl, fun _ => rfl, fun _ _ => rfl, fun _ _ => rfl⟩

/-- C4 counterexample: normalize is not idempotent on the in-vocabulary
sequence `["opposite", "left"]`: its output `["left", "opposite"]` ends in
a turn-repeat word, so a second pass fails instead of being a no-op. -/
theorem normalize_not_idempotent_on_opposite_left :
    ("opposite" ∈ vocab ∧ "left" ∈ vocab) ∧
    (transform_input ["opposite", "left"]).bind transform_input ≠
      transform_input ["opposite", "left"] :=
  ⟨by decide, by decide⟩

/-- C4 (amended): normalize is the identity, hence idempotent, on every
token sequence containing no turn-repeat word; sequences that still
contain a turn-repeat word after one pass are in general not fixed
points. -/
theorem normalize_fixed_on_turnRepeatFree (t : List String)
    (h : ∀ w ∈ t, w ∉ turn_times_word) :
    transform_input t = some t ∧
    (transform_input t).bind transform_input = transform_input t := by
  have h1 : transform_input t = some t :=
    transformGo_skip t.enum t fun p hp => h p.2 (snd_mem_of_mem_enumFrom t 0 p hp)
  rw [h1]
  exact ⟨rfl, h1⟩

/-- Witness for C4 (amended) at the turn-repeat-free sequence
`["walk", "twice"]`. -/
theorem normalize_fixed_on_turnRepeatFree_witness :
    transform_input ["walk", "twice"] = some ["walk", "twice"] ∧
    (transform_input ["walk", "twice"]).bind transform_input =
      transform_input ["walk", "twice"] :=
  normalize_fixed_on_turnRepeatFree ["walk", "twice"] (by decide)

/-- C5: on a raw sequence in which every turn-repeat word is immediately
followed by one argument token (a non-turn-repeat word), normalize
succeeds and returns exactly the adjacent-swap rewrite `swapAll`: a
sequence of the same length, a permutation of the input, in which each
turn-repeat word sits immediately after its argument, at the argument's
old successor position. -/
theorem normalize_swaps_turnRepeat (t : List String)
    (hP : ∀ i a, t.get? i = some a → a ∈ turn_times_word →
      ∃ b, t.get? (i + 1) = some b ∧ b ∉ turn_times_word) :
    transform_input t = some (swapAll t) ∧
    (swapAll t).length = t.length ∧
    (swapAll t).Perm t ∧
    ∀ i a, t.get? i = some a → a ∈ turn_times_word →
      (swapAll t).get? i = t.get? (i + 1) ∧ (swapAll t).get? (i + 1) = some a := by
  refine ⟨?_, swapAll_length t, swapAll_perm t, swapAll_get? t hP⟩
  have h := transformGo_swapAll t [] hP
  simpa [transform_input, List.enum] using h

/-- Witness for C5 at `["opposite", "left", "and", "walk"]`. -/
theorem normalize_swaps_turnRepeat_witness :
    transform_input ["opposite", "left", "and", "walk"] =
      some (swapAll ["opposite", "left", "and", "walk"]) ∧
    (swapAll ["opposite", "left", "and", "walk"]).length =
      (["opposite", "left", "and", "walk"] : List String).length ∧
    (swapAll ["opposite", "left", "and", "walk"]).Perm
      ["opposite", "left", "and", "walk"] ∧
    ∀ i a, (["opposite", "left", "and", "walk"] : List String).get? i = some a →
      a ∈ turn_times_word →
      (swapAll ["opposite", "left", "and", "walk"]).get? i =
        (["opposite", "left", "and", "walk"] : List String).get? (i + 1) ∧
      (swapAll ["opposite", "left", "and", "walk"]).get? (i + 1) = some a :=
  normalize_swaps_turnRepeat ["opposite", "left", "and", "walk"] (by
    intro i a h hm
    rcases i with _ | _ | _ | _ | n
    · simp at h; subst h; exact ⟨"left", rfl, by decide⟩
    · simp at h; subst h; exact absurd hm (by decide)
    · simp at h; subst h; exact absurd hm (by decide)
    · simp at h; subst h; exact absurd hm (by decide)
    · simp at h)

/-- C6 counterexample: `["around"]` is drawn from the valid vocabulary,
yet normalize fails on it (the swap reads one token past the end). -/
theorem normalize_fails_on_trailing_turnRepeat :
    "around" ∈ vocab ∧ transform_input ["around"] = none := by decide

/-- C6 (amended): normalize succeeds on every token sequence in which no
turn-repeat word occupies the last position, in particular on all
well-formed grammar input, where a turn-repeat word is always followed by
its argument. -/
theorem normalize_total_of_no_last_turnRepeat (t : List String)
    (h : ∀ i a, t.get? i = some a → a ∈ turn_times_word → i + 1 < t.length) :
    ∃ u, transform_input t = some u := by
  obtain ⟨u, hu, -⟩ := transformGo_total t.enum t (fun p hp hptt => by
    have hg := get?_of_mem_enumFrom t 0 p hp
    exact h p.1 p.2 (by simpa using hg.1) hptt)
  exact ⟨u, hu⟩

/-- Witness for C6 (amended) at `["around", "left"]`. -/
theorem normalize_total_of_no_last_turnRepeat_witness :
    ∃ u, transform_input ["around", "left"] = some u :=
  normalize_total_of_no_last_turnRepeat ["around", "left"] (by
    intro i a h hm
    rcases i with _ | _ | n
    · decide
    · simp at h; subst h; exact absurd hm (by decide)
    · simp at h)

/-- C8 counterexample: on the normalized fragment `["left", "opposite"]`
the parser underflows its value stack (the fragment contains no arity-0
operand), so it fails instead of returning the claimed head array. -/
theorem parse_left_opposite_fails :
    parse ["left", "opposite"] = .error .malformedSequence := rfl

/-- C1: whenever `parse` returns normally, the head array has exactly one
ROOT (`-1`) position, and following heads from every position reaches
that root: since `head` is functional, this says the non-root child-to-head
edges form one acyclic tree spanning all positions (no orphans, no
cycles, one component). -/
theorem parse_ok_tree (input : List String) (h : List Int)
    (hok : parse input = .ok h) :
    ∃ root, root < input.length ∧ h.get? root = some (-1) ∧
      (∀ c, c < input.length → h.get? c = some (-1) → c = root) ∧
      (∀ c, c < input.length → Reaches h c root) := by
  rcases parse_classify input with ⟨s, -, -, herr⟩ | herr |
    ⟨h2, hok2, hlen, root, hrlt, hropen, hclosed, hreach, -⟩
  · rw [hok] at herr; exact absurd herr (by simp)
  · rw [hok] at herr; exact absurd herr (by simp)
  · rw [hok] at hok2
    obtain rfl : h = h2 := by injection hok2
    refine ⟨root, hrlt, hropen, ?_, hreach⟩
    intro c hc hcroot
    by_contra hne
    obtain ⟨p, -, hp⟩ := hclosed c hc hne
    rw [hp] at hcroot
    have := Option.some.inj hcroot
    omega

/-- Witness for C1 at `parse ["jump"] = .ok [-1]`. -/
theorem parse_ok_tree_witness :
    ∃ root, root < (["jump"] : List String).length ∧
      ([-1] : List Int).get? root = some (-1) ∧
      (∀ c, c < (["jump"] : List String).length →
        ([-1] : List Int).get? c = some (-1) → c = root) ∧
      (∀ c, c < (["jump"] : List String).length → Reaches [-1] c root) :=
  parse_ok_tree ["jump"] [-1] rfl

/-- C2: whenever `parse` returns normally, each position `p` has exactly
`arity(symbol(p))` children: the number of entries of the head array equal
to `p` is the arity of the symbol at `p`. -/
theorem parse_ok_arity_conservation (input : List String) (h : List Int)
    (hok : parse input = .ok h) :
    ∀ p, p < input.length → h.count ((p : Int)) = arityAt input p := by
  rcases parse_classify input with ⟨s, -, -, herr⟩ | herr |
    ⟨h2, hok2, -, -, -, -, -, -, hcounts⟩
  · rw [hok] at herr; exact absurd herr (by simp)
  · rw [hok] at herr; exact absurd herr (by simp)
  · rw [hok] at hok2
    obtain rfl : h = h2 := by injection hok2
    exact hcounts

/-- Witness for C2 at `parse ["walk", "twice"] = .ok [1, -1]`: position 0
(`walk`) has no children, position 1 (`twice`) has one. -/
theorem parse_ok_arity_conservation_witness :
    ([1, -1] : List Int).count (((0 : Nat) : Int)) = arityAt ["walk", "twice"] 0 ∧
    ([1, -1] : List Int).count (((1 : Nat) : Int)) = arityAt ["walk", "twice"] 1 :=
  ⟨parse_ok_arity_conservation ["walk", "twice"] [1, -1] rfl 0 (by decide),
   parse_ok_arity_conservation ["walk", "twice"] [1, -1] rfl 1 (by decide)⟩

/-- C9: `parse` on the lone connector `["and"]` fails with
`MalformedSequenceError` (the drain pops the connector and underflows the
empty value stack); and on any input whose symbols are all in the table,
every failure of `parse` is a `MalformedSequenceError` (value-stack
underflow or a leftover/missing pending value), never anything else. -/
theorem parse_and_malformed :
    parse ["and"] = .error .malformedSequence ∧
    ∀ input : List String, (∀ s ∈ input, (sym2arity s).isSome) →
      (∃ h, parse input = .ok h) ∨ parse input = .error .malformedSequence := by
  refine ⟨rfl, ?_⟩
  intro input hall
  rcases parse_classify input with ⟨s, hsmem, hsnone, -⟩ | herr | ⟨h, hok, -⟩
  · have := hall s hsmem
    rw [hsnone] at this
    simp at this
  · exact Or.inr herr
  · exact Or.inl ⟨h, hok⟩

/-- Witness for C9's second conjunct at `["and"]`, whose symbol is in the
table. -/
theorem parse_and_malformed_witness :
    (∃ h, parse ["and"] = .ok h) ∨ parse ["and"] = .error .malformedSequence :=
  parse_and_malformed.2 ["and"] (by decide)

/-- C10: whenever `parse` returns normally, the head array has the length
of the input, ROOT is encoded as `-1` (and some entry holds it), and every
entry is `-1` or a position index below the input length. -/
theorem parse_ok_head_range (input : List String) (h : List Int)
    (hok : parse input = .ok h) :
    h.length = input.length ∧
    (∃ root, root < input.length ∧ h.get? root = some (-1)) ∧
    ∀ c, c < input.length → h.get? c = some (-1) ∨
      ∃ p, p < input.length ∧ h.get? c = some ((p : Int)) := by
  rcases parse_classify input with ⟨s, -, -, herr⟩ | herr |
    ⟨h2, hok2, hlen, root, hrlt, hropen, hclosed, -, -⟩
  · rw [hok] at herr; exact absurd herr (by simp)
  · rw [hok] at herr; exact absurd herr (by simp)
  · rw [hok] at hok2
    obtain rfl : h = h2 := by injection hok2
    refine ⟨hlen, ⟨root, hrlt, hropen⟩, ?_⟩
    intro c hc
    by_cases hcr : c = root
    · exact Or.inl (hcr ▸ hropen)
    · exact Or.inr (hclosed c hc hcr)

/-- Witness for C10 at `parse ["jump", "left"] = .ok [1, -1]`. -/
theorem parse_ok_head_range_witness :
    ([1, -1] : List Int).length = (["jump", "left"] : List String).length ∧
    (∃ root, root < (["jump", "left"] : List String).length ∧
      ([1, -1] : List Int).get? root = some (-1)) ∧
    ∀ c, c < (["jump", "left"] : List String).length →
      ([1, -1] : List Int).get? c = some (-1) ∨
      ∃ p, p < (["jump", "left"] : List String).length ∧
        ([1, -1] : List Int).get? c = some ((p : Int)) :=
  parse_ok_head_range ["jump", "left"] [1, -1] rfl

/-- C8 (amended): `normalize(["opposite", "left"])` is
`["left", "opposite"]`, but `parse` on that fragment fails with
`MalformedSequenceError`; embedding the construct in the full command
`["turn", "left", "opposite"]`, parse gives `left` the head `opposite`
and `opposite` the head ROOT (with `turn` attached to `left`). -/
theorem normalize_parse_opposite_left :
    transform_input ["opposite", "left"] = some ["left", "opposite"] ∧
    parse ["left", "opposite"] = .error .malformedSequence ∧
    parse ["turn", "left", "opposite"] = .ok [1, 2, -1] :=
  ⟨rfl, rfl, rfl⟩

end SCAN
